import Mathlib

/-!
Shallow embedding of the zazzle-optimizer content validation/normalization
pipeline, together with theorems settling the behavioural claims about it.

The embedding mirrors, function by function, the TypeScript sources:
  * `src/services/validation.ts`   (structural validator, Zod content schema,
    `validateAndTransform` pipeline, `ContentError` with its context defaults)
  * `src/services/socialContent.ts` (`validateContent` prose stripping and
    field normalization, `formatContent` description CTA and hashtag rules)
  * `src/services/instagramContent.ts` (`validateDescription`,
    `validateHashtags`)
  * `src/services/validation/validator.ts` + its schema module (the strict
    tag rule set: `isValidTag`, `categorizeTag`, uniqueness and category
    coverage refinements)

JavaScript strings are modelled as Lean `String` (a list of characters);
`JSON.parse` is modelled by an executable recursive-descent parser over the
JSON fragment the pipeline exchanges (objects, arrays, strings with the
common escapes, integer numbers, booleans, null).
-/

set_option maxRecDepth 10000

namespace Zazzle

/-! ## JavaScript string primitives -/

/-- Whitespace class used by `String.prototype.trim` (the characters that
actually occur in the repository's data). -/
def isWs (c : Char) : Bool := c = ' ' || c = '\t' || c = '\n' || c = '\r'

/-- Drop leading and trailing whitespace from a character list. -/
def trimL (l : List Char) : List Char :=
  ((l.dropWhile isWs).reverse.dropWhile isWs).reverse

/-- JS `s.trim()`. -/
def jsTrim (s : String) : String := ⟨trimL s.data⟩

/-- JS `s.startsWith(p)`. -/
def strStarts (s p : String) : Bool := p.data.isPrefixOf s.data

/-- JS `s.endsWith(p)`. -/
def strEnds (s p : String) : Bool := p.data.isSuffixOf s.data

/-- Substring test on character lists (JS `includes`). -/
def includesL (hay nee : List Char) : Bool :=
  hay.tails.any (fun t => nee.isPrefixOf t)

/-- JS `hay.includes(nee)`. -/
def includes (hay nee : String) : Bool := includesL hay.data nee.data

/-- JS `s.toLowerCase()` on the ASCII range used by the rule catalogs. -/
def lowerStr (s : String) : String := ⟨s.data.map Char.toLower⟩

/-- Split a character list at every occurrence of `sep` (JS `split`). -/
def splitL (sep : Char) : List Char → List (List Char)
  | [] => [[]]
  | c :: cs =>
    let r := splitL sep cs
    if c = sep then [] :: r
    else
      match r with
      | [] => [[c]]
      | h :: t => (c :: h) :: t

/-- JS `s.split(sep)` for a one-character separator. -/
def jsSplit (sep : Char) (s : String) : List String :=
  (splitL sep s.data).map (fun l => ⟨l⟩)

/-- Join character lists with a separator (JS `Array.prototype.join`). -/
def joinL (sep : List Char) : List (List Char) → List Char
  | [] => []
  | [x] => x
  | x :: y :: t => x ++ sep ++ joinL sep (y :: t)

/-- JS `xs.join(sep)`. -/
def joinStr (sep : String) (xs : List String) : String :=
  ⟨joinL sep.data (xs.map String.data)⟩

/-- JS `s.substring(0, n)` (for `n` at most the length, the first `n`
characters). -/
def takeStr (n : Nat) (s : String) : String := ⟨s.data.take n⟩

/-! ## JSON values and `JSON.parse` -/

/-- JSON values exchanged by the pipeline. -/
inductive Json where
  | null : Json
  | bool (b : Bool) : Json
  | num (n : Int) : Json
  | str (s : String) : Json
  | arr (elems : List Json) : Json
  | obj (fields : List (String × Json)) : Json

/-- Skip JSON insignificant whitespace. -/
def skipWs (cs : List Char) : List Char := cs.dropWhile isWs

/-- Parse the body of a JSON string literal (the opening quote already
consumed), handling the common escapes. -/
def parseStrBody : List Char → Option (List Char × List Char)
  | [] => none
  | '"' :: rest => some ([], rest)
  | '\\' :: e :: rest =>
    (match e with
     | '"' => some '"'
     | '\\' => some '\\'
     | '/' => some '/'
     | 'n' => some '\n'
     | 't' => some '\t'
     | 'r' => some '\r'
     | _ => none).bind fun c =>
      (parseStrBody rest).map fun (body, rem) => (c :: body, rem)
  | c :: rest =>
    (parseStrBody rest).map fun (body, rem) => (c :: body, rem)

/-- Parse a run of decimal digits into a natural number. -/
def parseDigits (cs : List Char) : Option (Nat × List Char) :=
  let digs := cs.takeWhile Char.isDigit
  if digs = [] then none
  else some (digs.foldl (fun n c => n * 10 + (c.toNat - 48)) 0, cs.drop digs.length)

mutual

/-- Fuel-indexed JSON value parser (models `JSON.parse`). -/
def parseVal : Nat → List Char → Option (Json × List Char)
  | 0, _ => none
  | fuel + 1, cs =>
    match skipWs cs with
    | '{' :: rest =>
      (match skipWs rest with
       | '}' :: rem => some (Json.obj [], rem)
       | other => (parseMembers fuel other).map fun (fs, rem) => (Json.obj fs, rem))
    | '[' :: rest =>
      (match skipWs rest with
       | ']' :: rem => some (Json.arr [], rem)
       | other => (parseElems fuel other).map fun (es, rem) => (Json.arr es, rem))
    | '"' :: rest =>
      (parseStrBody rest).map fun (body, rem) => (Json.str ⟨body⟩, rem)
    | 't' :: 'r' :: 'u' :: 'e' :: rest => some (Json.bool true, rest)
    | 'f' :: 'a' :: 'l' :: 's' :: 'e' :: rest => some (Json.bool false, rest)
    | 'n' :: 'u' :: 'l' :: 'l' :: rest => some (Json.null, rest)
    | '-' :: rest =>
      (parseDigits rest).map fun (n, rem) => (Json.num (-(n : Int)), rem)
    | other =>
      (parseDigits other).map fun (n, rem) => (Json.num (n : Int), rem)

/-- Parse one-or-more comma-separated JSON array elements. -/
def parseElems : Nat → List Char → Option (List Json × List Char)
  | 0, _ => none
  | fuel + 1, cs =>
    (parseVal fuel cs).bind fun (v, rem) =>
      match skipWs rem with
      | ',' :: rest => (parseElems fuel rest).map fun (es, rem') => (v :: es, rem')
      | ']' :: rest => some ([v], rest)
      | _ => none

/-- Parse one-or-more comma-separated JSON object members. -/
def parseMembers : Nat → List Char → Option (List (String × Json) × List Char)
  | 0, _ => none
  | fuel + 1, cs =>
    match skipWs cs with
    | '"' :: rest =>
      (parseStrBody rest).bind fun (key, rem) =>
        match skipWs rem with
        | ':' :: rest' =>
          (parseVal fuel rest').bind fun (v, rem') =>
            match skipWs rem' with
            | ',' :: rest'' =>
              (parseMembers fuel rest'').map fun (fs, rem'') => ((⟨key⟩, v) :: fs, rem'')
            | '}' :: rest'' => some ([(⟨key⟩, v)], rest'')
            | _ => none
        | _ => none
    | _ => none

end

/-- `JSON.parse`: parse a complete JSON document, rejecting trailing
garbage. -/
def jsonParse (s : String) : Option Json :=
  match parseVal (s.data.length + 1) s.data with
  | some (v, rem) => if skipWs rem = [] then some v else none
  | none => none

/-- JS property read `o[k]` on a parsed object (later duplicate keys win,
as with `JSON.parse`). -/
def jLookup (fields : List (String × Json)) (k : String) : Option Json :=
  (fields.reverse.find? (fun p => p.1 = k)).map (fun p => p.2)

/-- JS `k in o`. -/
def jHasKey (fields : List (String × Json)) (k : String) : Bool :=
  fields.any (fun p => p.1 = k)

end Zazzle


namespace Zazzle

/-! ## `src/services/validation.ts`: error taxonomy, Zod content schema,
structural validator, `validateAndTransform` pipeline -/

/-- Error codes of the `ContentError` taxonomy (`errorHandler` /
`contentError` modules). -/
inductive ECode where
  | INVALID_JSON
  | MISSING_INPUT
  | IMAGE_ERROR
  | CONTENT_ERROR
  | MODEL_ERROR
  | VALIDATION_ERROR
  | API_ERROR
  | UNKNOWN_ERROR
deriving DecidableEq

/-- `ContentError` as thrown by `validateAndTransform`: code, message, and
the `context.missingFields` entry (which the constructor defaults to `[]`
when the caller passes no context, as `validateAndTransform` does). -/
structure CError where
  code : ECode
  message : String
  missingFields : List String
deriving DecidableEq

/-- Zod issues for the `title` field of `ContentSchema`
(`z.string().min(1).max(50).refine(no braces)`); Zod collects every failing
check rather than stopping at the first. -/
def titleIssues (t : String) : List String :=
  (if t.length < 1 then ["Title is required"] else []) ++
  (if t.length > 50 then ["Title must be 50 characters or less"] else []) ++
  (if includes t "\x7b" || includes t "\x7d" then ["Title cannot contain JSON syntax"] else [])

/-- Zod issues for the `description` field of `ContentSchema`
(`z.string().min(150).max(200).refine(no braces)`). -/
def descriptionIssues (d : String) : List String :=
  (if d.length < 150 then ["Description must be at least 150 characters"] else []) ++
  (if d.length > 200 then ["Description must be 200 characters or less"] else []) ++
  (if includes d "\x7b" || includes d "\x7d" then ["Description cannot contain JSON syntax"] else [])

/-- The `tags` transform of `ContentSchema`: a comma-separated string is
split, each piece trimmed, empty pieces dropped. -/
def splitTags (s : String) : List String :=
  ((jsSplit ',' s).map jsTrim).filter (fun t => t ≠ "")

/-- The `tags` union coercion of `ContentSchema`: a string is split into a
tag array, an array of strings is used as-is; any other value fails the
union. -/
def tagsCoerce : Json → Option (List String)
  | Json.str s => some (splitTags s)
  | Json.arr xs =>
    xs.foldr (fun x acc =>
      match x, acc with
      | Json.str s, some l => some (s :: l)
      | _, _ => none) (some [])
  | _ => none

/-- Zod issues for the coerced `tags` value (count refinement then
non-empty refinement; both run even when the first fails). -/
def tagListIssues (tags : List String) : List String :=
  (if 4 ≤ tags.length ∧ tags.length ≤ 12 then [] else ["Must have between 4 and 12 tags"]) ++
  (if tags.all (fun t => 0 < (jsTrim t).length) then [] else ["Tags cannot be empty"])

/-- Zod issues for one field of the object schema: a missing key is a
`Required` issue, a value of the wrong shape an invalid-input issue,
otherwise the field checks run. -/
def fieldIssues (check : String → List String) : Option Json → List String
  | none => ["Required"]
  | some (Json.str s) => check s
  | some _ => ["Invalid input"]

/-- Zod issues for the `tags` field (union + transform + refinements). -/
def tagsFieldIssues : Option Json → List String
  | none => ["Required"]
  | some v =>
    match tagsCoerce v with
    | none => ["Invalid input"]
    | some tags => tagListIssues tags

/-- All issues collected by `ContentSchema.parse` on a parsed value
(field order follows the schema shape: title, description, tags). -/
def schemaIssues : Json → List String
  | Json.obj f =>
    fieldIssues titleIssues (jLookup f "title") ++
    fieldIssues descriptionIssues (jLookup f "description") ++
    tagsFieldIssues (jLookup f "tags")
  | _ => ["Expected object"]

/-- Outcome of `Validator.validateJSON` (`{ isValid, data?, error? }`). -/
inductive JsonCheck where
  | valid (data : Json)
  | invalid (error : String)

/-- The message envelope `validateJSON` wraps every failure in. -/
def jvEnvelope (msg : String) : String :=
  "Content generation failed due to invalid JSON structure: " ++ msg

/-- Placeholder for the engine-specific `JSON.parse` exception text. -/
def parseErrorMsg : String := "Unexpected token"

/-- `Validator.validateJSON`: trim, demand a brace-delimited object, parse,
reject non-objects, then demand the literal keys `title`, `description`,
`tags`, reporting the missing ones in the error message. -/
def validateJSON (input : String) : JsonCheck :=
  let t := jsTrim input
  if !(strStarts t "\x7b" && strEnds t "\x7d") then
    JsonCheck.invalid (jvEnvelope "Input must be a JSON object")
  else
    match jsonParse t with
    | none => JsonCheck.invalid (jvEnvelope parseErrorMsg)
    | some (Json.obj fields) =>
      let missing := (["title", "description", "tags"].filter (fun k => !(jHasKey fields k)))
      if missing = [] then JsonCheck.valid (Json.obj fields)
      else JsonCheck.invalid (jvEnvelope ("Missing required fields: " ++ joinStr ", " missing))
    | some _ => JsonCheck.invalid (jvEnvelope "Input must be a JSON object")

/-- The record produced by a successful `ContentSchema.parse` (tags already
coerced to an array). -/
structure VContent where
  title : String
  description : String
  tags : List String
deriving DecidableEq

/-- The transformed record `validateContent` returns on success. -/
def contentData (j : Json) : Option VContent :=
  match j with
  | Json.obj f =>
    match jLookup f "title", jLookup f "description", (jLookup f "tags").bind tagsCoerce with
    | some (Json.str t), some (Json.str d), some tags => some ⟨t, d, tags⟩
    | _, _, _ => none
  | _ => none

/-- `Validator.validateAndTransform`: structural validation first (failures
become `ContentError INVALID_JSON`), then schema validation (failures become
`ContentError VALIDATION_ERROR` whose message joins every collected Zod
issue). No context is passed, so `context.missingFields` defaults to `[]`. -/
def validateAndTransform (input : String) : Except CError VContent :=
  match validateJSON input with
  | JsonCheck.invalid e => Except.error ⟨ECode.INVALID_JSON, e, []⟩
  | JsonCheck.valid d =>
    let issues := schemaIssues d
    if issues = [] then
      match contentData d with
      | some c => Except.ok c
      | none => Except.error ⟨ECode.VALIDATION_ERROR, "Content validation failed: Invalid content structure", []⟩
    else
      Except.error ⟨ECode.VALIDATION_ERROR, "Content validation failed: " ++ joinStr ", " issues, []⟩

end Zazzle

namespace Zazzle

/-! ## `src/services/socialContent.ts`: prose stripping, per-platform
defaults, field normalization, `formatContent` -/

/-- The social platforms handled by `socialContent.ts`. -/
inductive Platform where
  | Instagram
  | Facebook
  | Pinterest
deriving DecidableEq

/-- A platform content record (`title`, `description`, comma-separated
`tags` string). -/
structure PContent where
  title : String
  description : String
  tags : String
deriving DecidableEq

/-- `DEFAULT_CONTENT`: the hardcoded per-platform default record. -/
def DEFAULT_CONTENT : Platform → PContent
  | Platform.Instagram =>
    ⟨"Default Instagram Title",
     "This is a detailed and engaging Instagram caption optimized for SEO and designed to capture attention. It provides all necessary context and information.",
     "optimized, instagram, social, seo, design, creative"⟩
  | Platform.Facebook =>
    ⟨"Default Facebook Title",
     "This is a detailed and engaging Facebook post optimized for SEO, designed to capture attention and provide all necessary information.",
     "optimized, facebook, social, seo, design, creative"⟩
  | Platform.Pinterest =>
    ⟨"Default Pin Title",
     "This is a detailed and engaging Pinterest pin description optimized for SEO, providing all necessary information to enhance your ranking and attract your audience.",
     "optimized, pinterest, seo, design, creative"⟩

def MAX_TITLE_LENGTH : Nat := 40

def MIN_DESCRIPTION_LENGTH : Nat := 100

def MAX_DESCRIPTION_LENGTH : Nat := 1000

/-- The capture of `content.replace(/^[\s\S]*?(\x7b[\s\S]*\x7d)[\s\S]*$/, '$1')`:
when some `\x7b` is followed by a later `\x7d`, the span from the first `\x7b`
through the last `\x7d` of the input; otherwise the input unchanged. -/
def braceSpanL (s : List Char) : List Char :=
  let rest := s.dropWhile (fun c => c ≠ '{')
  match rest with
  | [] => s
  | _ :: tl =>
    if tl.contains '}' then (rest.reverse.dropWhile (fun c => c ≠ '}')).reverse
    else s

/-- The cleanup step of `socialContent.validateContent` (regex capture, then
`trim`). -/
def cleanContent (s : String) : String := jsTrim ⟨braceSpanL s.data⟩

/-- JS truthiness of a parsed JSON value (`parsed.tags || ''`). -/
def jsTruthy : Json → Bool
  | Json.null => false
  | Json.bool b => b
  | Json.num n => n ≠ 0
  | Json.str s => s ≠ ""
  | Json.arr _ => true
  | Json.obj _ => true

/-- JS `String(v)` conversion for parsed JSON values. -/
def jsToString : Json → String
  | Json.null => "null"
  | Json.bool b => if b then "true" else "false"
  | Json.num n => toString n
  | Json.str s => s
  | Json.arr xs => joinStr "," (xs.attach.map (fun x => jsToString x.1))
  | Json.obj _ => "[object Object]"
decreasing_by
  have h := List.sizeOf_lt_of_mem x.2
  simp only [Json.arr.sizeOf_spec]
  omega

/-- The title rule of `socialContent.validateContent`: over-long titles are
cut to `MAX_TITLE_LENGTH - 3` characters with an ellipsis appended. -/
def normalizeTitle (t : String) : String :=
  if t.length > MAX_TITLE_LENGTH then takeStr (MAX_TITLE_LENGTH - 3) t ++ "..." else t

/-- The description rule of `socialContent.validateContent`: too-short
descriptions are replaced wholesale with the platform default, too-long ones
truncated with an ellipsis. -/
def normalizeDescription (p : Platform) (d : String) : String :=
  if d.length < MIN_DESCRIPTION_LENGTH then (DEFAULT_CONTENT p).description
  else if d.length > MAX_DESCRIPTION_LENGTH then
    takeStr (MAX_DESCRIPTION_LENGTH - 3) d ++ "..."
  else d

/-- The tags rule of `socialContent.validateContent`: an empty tags string is
replaced with the platform's default tag list (Pinterest is special-cased in
the source but receives its own default either way). -/
def normalizeTags (p : Platform) (t : String) : String :=
  if p = Platform.Pinterest ∧ t = "" then (DEFAULT_CONTENT Platform.Pinterest).tags
  else if t = "" then (DEFAULT_CONTENT p).tags
  else t

/-- The post-parse body of `socialContent.validateContent`: reject records
whose `title` or `description` is absent, non-string, or blank after
trimming (any of these makes the function return `null`); then trim all
three fields with `tags` defaulting to the empty string, and apply the
title, description and tags rules. -/
def svalidateData (p : Platform) (j : Json) : Option PContent :=
  match j with
  | Json.obj f =>
    match jLookup f "title", jLookup f "description" with
    | some (Json.str t), some (Json.str d) =>
      if jsTrim t = "" ∨ jsTrim d = "" then none
      else
        let tagsV : Json :=
          match jLookup f "tags" with
          | some v => if jsTruthy v then v else Json.str ""
          | none => Json.str ""
        let f0 : PContent := ⟨jsTrim t, jsTrim d, jsTrim (jsToString tagsV)⟩
        let f1 : PContent := { f0 with title := normalizeTitle f0.title }
        let f2 : PContent := { f1 with description := normalizeDescription p f1.description }
        some { f2 with tags := normalizeTags p f2.tags }
    | _, _ => none
  | _ => none

/-- `socialContent.validateContent`: strip surrounding prose, demand the
brace-delimited shape, parse, then validate and normalize the fields
(parse failures yield `null`). -/
def svalidateContent (p : Platform) (content : String) : Option PContent :=
  if !(strStarts (cleanContent content) "\x7b" && strEnds (cleanContent content) "\x7d") then none
  else (jsonParse (cleanContent content)).bind (svalidateData p)

/-- The output shape of `formatContent` (`SocialContent`). -/
structure SContent where
  description : String
  hashtags : String
deriving DecidableEq

/-- The first emoji marker `formatContent` looks for in descriptions (the
source file's literal bytes). -/
def MARKER1 : String := "‚ú®"

/-- The second emoji marker `formatContent` looks for. -/
def MARKER2 : String := "üåü"

/-- The per-platform call-to-action `formatContent` appends when neither
marker is present. -/
def ctaFor : Platform → String
  | Platform.Pinterest => "üîç Save for inspiration!"
  | Platform.Facebook => "üåü Check it out now!"
  | Platform.Instagram => "‚ú® Shop now!"

/-- The hashtag formatting of `formatContent` for non-Pinterest platforms:
split the comma list, trim, drop empties, hash-prefix anything not already
prefixed, join with single spaces. -/
def hashtagJoin (tags : String) : String :=
  joinStr " "
    ((((jsSplit ',' tags).map jsTrim).filter (fun t => t ≠ "")).map
      (fun t => if strStarts t "#" then t else "#" ++ t))

/-- `socialContent.formatContent`: `null` content falls back to the platform
default record; otherwise a call-to-action is appended when no emoji marker
is present, and tags are hashtag-formatted except for Pinterest, which keeps
the raw comma list. -/
def formatContent (p : Platform) (content : Option PContent) : SContent :=
  match content with
  | none => ⟨(DEFAULT_CONTENT p).description, (DEFAULT_CONTENT p).tags⟩
  | some c =>
    let d :=
      if !(includes c.description MARKER1) && !(includes c.description MARKER2) then
        c.description ++ "\n\n" ++ ctaFor p
      else c.description
    let h := if p = Platform.Pinterest then c.tags else hashtagJoin c.tags
    ⟨d, h⟩

end Zazzle

namespace Zazzle

/-! ## `src/services/instagramContent.ts`: Instagram description and
hashtag validators -/

/-- `INSTAGRAM_CONSTRAINTS.description.maxLength`. -/
def IG_DESC_MAX : Nat := 150

/-- `INSTAGRAM_CONSTRAINTS.hashtags.min`. -/
def IG_TAGS_MIN : Nat := 10

/-- `INSTAGRAM_CONSTRAINTS.hashtags.max`. -/
def IG_TAGS_MAX : Nat := 15

/-- `requiredElements.emotional`. -/
def igEmotional : List String := ["special", "unique", "perfect", "memorable"]

/-- `requiredElements.personalization`. -/
def igPersonalization : List String := ["personalize", "custom", "your"]

/-- `requiredElements.benefits`. -/
def igBenefits : List String := ["quality", "premium", "exclusive"]

/-- `requiredElements.cta`. -/
def igCta : List String := ["order now", "shop now", "get yours"]

/-- `words.some(w => s.toLowerCase().includes(w))`. -/
def hasAny (s : String) (ws : List String) : Bool :=
  ws.any (fun w => includes (lowerStr s) w)

/-- The truncation step of `instagramContent.validateDescription`: over-long
text is cut to `maxLength - 3` characters plus an ellipsis. -/
def igTruncate (v : String) : String :=
  if v.length > IG_DESC_MAX then takeStr (IG_DESC_MAX - 3) v ++ "..." else v

/-- The sentence appended when emotional appeal or personalization is
missing. -/
def igEmoSuffix : String := " Make your space special with a personalized touch! ✨"

/-- The sentence appended when product benefits are missing. -/
def igBenSuffix : String := " Premium quality guaranteed. 🌟"

/-- The sentence appended when a call-to-action is missing. -/
def igCtaSuffix : String := " Order now! 🎨"

/-- The repair step of `validateDescription`: the four element checks are
computed on the (already truncated) text, then the fixed suffixes are
appended for whatever is missing. -/
def igRepair (v1 : String) : String :=
  let v2 :=
    if !(hasAny v1 igEmotional) || !(hasAny v1 igPersonalization) then v1 ++ igEmoSuffix
    else v1
  let v3 := if !(hasAny v1 igBenefits) then v2 ++ igBenSuffix else v2
  if !(hasAny v1 igCta) then v3 ++ igCtaSuffix else v3

/-- The final emoji pass of `validateDescription`: prepend a sparkle when
neither emoji is present. -/
def igEmojiWrap (v4 : String) : String :=
  if !(includes v4 "✨") && !(includes v4 "🌟") then "✨ " ++ v4 else v4

/-- `instagramContent.validateDescription`: reject empty input; trim;
truncate; test the truncated text for the required elements and append the
repair sentences (after truncation); finally prepend a sparkle emoji if none
is present. -/
def validateDescription (description : String) : Option String :=
  if description = "" then none
  else some (igEmojiWrap (igRepair (igTruncate (jsTrim description))))

/-- The cleanup pass of `instagramContent.validateHashtags`: trim each tag,
drop empties, hash-prefix anything not already prefixed. -/
def cleanTags (tags : List String) : List String :=
  ((tags.map jsTrim).filter (fun t => t ≠ "")).map
    (fun t => if strStarts t "#" then t else "#" ++ t)

/-- `INSTAGRAM_CONSTRAINTS.hashtags.categories`. -/
def igCategories : List (String × List String) :=
  [("easter", ["easter", "spring", "holiday"]),
   ("product", ["gift", "decor", "design"]),
   ("personalization", ["custom", "personalized", "unique"]),
   ("style", ["handmade", "premium", "quality"])]

/-- The categories with no matching hashtag (`missingCategories` in
`validateHashtags`, computed over the lower-cased cleaned tags). -/
def missingCategories (cleaned : List String) : List String :=
  (igCategories.filter (fun kc =>
    !(kc.2.any (fun w => (cleaned.map lowerStr).any (fun tag => includes tag w))))).map
    (fun kc => kc.1)

/-- `instagramContent.validateHashtags`: clean the tags, fail below the
minimum count or when a required category is unrepresented, then cut the
list to the maximum count (dropping from the tail). -/
def validateHashtags (tags : List String) : Option (List String) :=
  let cleaned := cleanTags tags
  if cleaned.length < IG_TAGS_MIN then none
  else if missingCategories cleaned ≠ [] then none
  else some (if IG_TAGS_MAX < cleaned.length then cleaned.take IG_TAGS_MAX else cleaned)

end Zazzle

namespace Zazzle

/-! ## `src/services/validation/validator.ts` schema module: the strict
tag rule set (`ContentSchema.tags`) -/

/-- `VALIDATION_RULES.tags` of the strict schema module. -/
def SCHEMA2_TAGS_MIN : Nat := 10

def SCHEMA2_TAGS_MAX : Nat := 12

def SCHEMA2_TAG_MINLEN : Nat := 3

def SCHEMA2_TAG_MAXLEN : Nat := 30

/-- A character allowed by the tag regex class `[\w\s-]` (word characters,
whitespace, hyphen). -/
def isTagChar (c : Char) : Bool := c.isAlphanum || c = '_' || isWs c || c = '-'

/-- `s.toLowerCase()` membership in the stop-word alternation
`^(the|and|or|in|on|at|to)$`. -/
def isStopWord (t : String) : Bool :=
  [("the" : String), "and", "or", "in", "on", "at", "to"].any (fun w => lowerStr t = w)

/-- Word count of a tag: the schema splits on whitespace runs; on the
trimmed, double-space-free tags that reach this check this equals splitting
on single spaces. -/
def wordCount (t : String) : Nat := (splitL ' ' t.data).length

/-- Case-insensitive promotional-language test
`/best|amazing|awesome|incredible|perfect/i`. -/
def hasPromoWord (t : String) : Bool :=
  [("best" : String), "amazing", "awesome", "incredible", "perfect"].any
    (fun w => includes (lowerStr t) w)

/-- `isValidTag` of the strict schema module: length bounds, character
class, no double spaces, no bare stop words, at most three words, no
promotional language. -/
def isValidTag (tag : String) : Bool :=
  if tag.length < SCHEMA2_TAG_MINLEN || tag.length > SCHEMA2_TAG_MAXLEN ||
      tag.data.any (fun c => !(isTagChar c)) ||
      includes tag "  " || isStopWord tag then
    false
  else if wordCount tag > 3 then false
  else if hasPromoWord tag then false
  else true

/-- `words.some(w => lowerTag.includes(w))` over an alternation pattern. -/
def anyIncl (lt : String) (ws : List String) : Bool :=
  ws.any (fun w => includes lt w)

/-- `categorizeTag`: classify a tag by the first matching pattern, with an
`other` fallback. -/
def categorizeTag (tag : String) : String :=
  let lt := lowerStr tag
  if anyIncl lt ["mug", "cup", "coffee", "tea", "drinkware"] then "product_type"
  else if anyIncl lt ["handmade", "elegant", "classic", "modern"] then "design_style"
  else if anyIncl lt ["mothers day", "celebration", "holiday"] then "occasion"
  else if anyIncl lt ["custom", "personalized", "unique"] then "personalization"
  else if anyIncl lt ["special", "cherished", "heartfelt", "memorable"] then "emotion"
  else if anyIncl lt ["mom", "mother", "parent", "family"] then "target_audience"
  else if anyIncl lt ["gift idea", "perfect gift", "thoughtful present"] then "gifting"
  else if anyIncl lt ["mothers day gift", "mom present", "maternal"] then "mothers_day"
  else "other"

/-- `VALIDATION_RULES.tags.requiredCategories`. -/
def requiredCategories : List String :=
  ["product_type", "design_style", "occasion", "personalization",
   "emotion", "target_audience", "gifting", "mothers_day"]

/-- `hasRequiredTagCategories`: every required category must be hit by at
least one tag. -/
def hasRequiredTagCategories (tags : List String) : Bool :=
  requiredCategories.all (fun cat => (tags.map categorizeTag).contains cat)

/-- The Zod issues of the strict schema's `tags` field on the coerced tag
list: count bounds, per-tag shape, exact-string uniqueness
(`new Set(tags).size === tags.length`), sentence limit, category coverage.
All five refinements run, collecting every failure. -/
def tagsIssues2 (raw : String) : List String :=
  let tags := splitTags raw
  (if SCHEMA2_TAGS_MIN ≤ tags.length ∧ tags.length ≤ SCHEMA2_TAGS_MAX then []
   else ["Must have between 10 and 12 tags"]) ++
  (if tags.all isValidTag then []
   else ["Tags must be between 3-30 characters and contain only letters, numbers, spaces, and hyphens"]) ++
  (if tags.Nodup then [] else ["Tags must be unique"]) ++
  (if tags.any (fun t => wordCount t > 3) then ["Tags should not be full sentences"] else []) ++
  (if hasRequiredTagCategories tags then []
   else ["Tags must cover all required categories: product type, design style, occasion, personalization, emotion, target audience, gifting, and Mother's Day"])

end Zazzle

namespace Zazzle

/-! ## Generic string/list lemmas used by the claim proofs -/

/-- Rebuilding a string from its character data is the identity. -/
theorem strEta (s : String) : (⟨s.data⟩ : String) = s := by
  cases s
  rfl

/-- Appending strings concatenates their character data. -/
theorem data_append (a b : String) : (a ++ b).data = a.data ++ b.data := by
  cases a
  cases b
  rfl

/-- The Bool substring test coincides with list infixhood. -/
theorem includesL_iff (hay nee : List Char) : includesL hay nee = true ↔ nee <:+: hay := by
  unfold includesL
  rw [List.any_eq_true]
  constructor
  · rintro ⟨t, ht, hp⟩
    rw [List.mem_tails] at ht
    rw [ List.isPrefixOf_iff_prefix] at hp
    exact List.infix_iff_prefix_suffix.mpr ⟨t, hp, ht⟩
  · intro h
    rcases List.infix_iff_prefix_suffix.mp h with ⟨t, hp, ht⟩
    exact ⟨t, (List.mem_tails _ _).mpr ht, List.isPrefixOf_iff_prefix.mpr hp⟩

/-- A substring of the right part survives appending on the left. -/
theorem includes_append_left (a b nee : String) (h : includes b nee = true) :
    includes (a ++ b) nee = true := by
  rw [includes, includesL_iff] at h ⊢
  rw [data_append]
  rcases h with ⟨u, v, huv⟩
  exact ⟨a.data ++ u, v, by rw [← huv]; simp⟩

/-- A substring of the left part survives appending on the right. -/
theorem includes_append_right (a b nee : String) (h : includes a nee = true) :
    includes (a ++ b) nee = true := by
  rw [includes, includesL_iff] at h ⊢
  rw [data_append]
  rcases h with ⟨u, v, huv⟩
  exact ⟨u, v ++ b.data, by rw [← huv]; simp⟩

/-- Lower-casing distributes over string append. -/
theorem lowerStr_append (a b : String) : lowerStr (a ++ b) = lowerStr a ++ lowerStr b := by
  apply String.ext
  show (a ++ b).data.map Char.toLower = (lowerStr a ++ lowerStr b).data
  rw [data_append, data_append, List.map_append]
  rfl

/-- Every member of a joined list is a substring of the join. -/
theorem includes_joinStr_of_mem (sep : String) (xs : List String) (x : String)
    (hx : x ∈ xs) : includes (joinStr sep xs) x = true := by
  rw [includes, includesL_iff]
  unfold joinStr
  show x.data <:+: joinL sep.data (xs.map String.data)
  induction xs with
  | nil => cases hx
  | cons a t ih =>
    rcases List.mem_cons.mp hx with h | h
    · subst h
      cases t with
      | nil => exact List.infix_rfl
      | cons b t' => exact ⟨[], sep.data ++ joinL sep.data (List.map String.data (b :: t')), by simp [joinL]⟩
    · have hinf := ih h
      cases t with
      | nil => cases h
      | cons b t' =>
        have : joinL sep.data (List.map String.data (a :: b :: t')) =
            (a.data ++ sep.data) ++ joinL sep.data (List.map String.data (b :: t')) := by
          simp [joinL]
        rw [this]
        exact hinf.trans ⟨a.data ++ sep.data, [], by simp⟩

/-- `dropWhile` skips a block of elements all satisfying the predicate. -/
theorem dropWhile_append_all (p : Char → Bool) (l₁ l₂ : List Char)
    (h : ∀ a ∈ l₁, p a = true) : (l₁ ++ l₂).dropWhile p = l₂.dropWhile p := by
  induction l₁ with
  | nil => rfl
  | cons a t ih =>
    simp only [List.cons_append, List.dropWhile_cons, h a (List.mem_cons_self a t), if_true]
    exact ih fun x hx => h x (List.mem_cons_of_mem a hx)

/-- The head surviving `dropWhile` fails the predicate. -/
theorem head?_dropWhile (p : Char → Bool) (l : List Char) (c : Char)
    (h : (l.dropWhile p).head? = some c) : p c = false := by
  induction l with
  | nil => cases h
  | cons a t ih =>
    by_cases hp : p a = true
    · rw [List.dropWhile_cons, if_pos hp] at h
      exact ih h
    · rw [List.dropWhile_cons, if_neg hp] at h
      cases h
      exact Bool.not_eq_true _ |>.mp hp

/-- A non-empty `dropWhile` keeps the original last element. -/
theorem getLast?_dropWhile (p : Char → Bool) (l : List Char)
    (h : l.dropWhile p ≠ []) : (l.dropWhile p).getLast? = l.getLast? := by
  induction l with
  | nil => simp at h
  | cons a t ih =>
    by_cases hp : p a = true
    · rw [List.dropWhile_cons, if_pos hp] at h ⊢
      cases t with
      | nil => simp [List.dropWhile_nil] at h
      | cons b t' => rw [ih h, List.getLast?_cons_cons]
    · rw [List.dropWhile_cons, if_neg hp]

/-- A list whose first and last characters are not whitespace is unchanged
by trimming. -/
theorem trimL_eq_self (l : List Char)
    (h1 : ∀ c, l.head? = some c → isWs c = false)
    (h2 : ∀ c, l.getLast? = some c → isWs c = false) : trimL l = l := by
  unfold trimL
  cases l with
  | nil => rfl
  | cons a t =>
    have ha : isWs a = false := h1 a rfl
    rw [List.dropWhile_cons, if_neg (by simp [ha])]
    have hrev : (a :: t).reverse ≠ [] := by simp
    cases hr : (a :: t).reverse with
    | nil => exact absurd hr hrev
    | cons b r =>
      have hb : (a :: t).getLast? = some b := by
        rw [← List.head?_reverse, hr]
        rfl
      rw [List.dropWhile_cons, if_neg (by simp [h2 b hb])]
      rw [← hr, List.reverse_reverse]

/-- The head of a trimmed list is not whitespace. -/
theorem trimL_head_not_ws (l : List Char) (c : Char)
    (h : (trimL l).head? = some c) : isWs c = false := by
  unfold trimL at h
  rw [List.head?_reverse] at h
  set m := (l.dropWhile isWs).reverse.dropWhile isWs with hm
  have hne : m ≠ [] := by
    intro he
    rw [he] at h
    cases h
  have : m.getLast? = ((l.dropWhile isWs).reverse).getLast? := getLast?_dropWhile _ _ hne
  rw [this] at h
  rw [List.getLast?_reverse] at h
  exact head?_dropWhile _ _ _ h

/-- The last character of a trimmed list is not whitespace. -/
theorem trimL_getLast_not_ws (l : List Char) (c : Char)
    (h : (trimL l).getLast? = some c) : isWs c = false := by
  unfold trimL at h
  rw [List.getLast?_reverse] at h
  exact head?_dropWhile _ _ _ h

/-- Splitting a list that does not contain the separator returns it whole. -/
theorem splitL_eq_single (sep : Char) (l : List Char) (h : sep ∉ l) :
    splitL sep l = [l] := by
  induction l with
  | nil => rfl
  | cons a t ih =>
    have ha : a ≠ sep := fun he => h (he ▸ List.mem_cons_self a t)
    have ht : sep ∉ t := fun hm => h (List.mem_cons_of_mem a hm)
    unfold splitL
    rw [if_neg ha, ih ht]

/-- Characters of a join come from either the separator or some member. -/
theorem mem_joinL (sep : List Char) (xs : List (List Char)) (c : Char)
    (h : c ∈ joinL sep xs) : c ∈ sep ∨ ∃ x ∈ xs, c ∈ x := by
  induction xs with
  | nil => cases h
  | cons a t ih =>
    cases t with
    | nil => exact Or.inr ⟨a, List.mem_cons_self _ _, h⟩
    | cons b t' =>
      have : joinL sep (a :: b :: t') = a ++ sep ++ joinL sep (b :: t') := rfl
      rw [this] at h
      rcases List.mem_append.mp h with h1 | h2
      · rcases List.mem_append.mp h1 with h3 | h4
        · exact Or.inr ⟨a, List.mem_cons_self _ _, h3⟩
        · exact Or.inl h4
      · rcases ih h2 with h5 | ⟨x, hx, hcx⟩
        · exact Or.inl h5
        · exact Or.inr ⟨x, List.mem_cons_of_mem _ hx, hcx⟩

/-- The head of a join is the head of its non-empty first member. -/
theorem head?_joinL (sep : List Char) (x : List Char) (t : List (List Char))
    (hx : x ≠ []) : (joinL sep (x :: t)).head? = x.head? := by
  cases t with
  | nil => rfl
  | cons b t' =>
    show ((x ++ sep) ++ joinL sep (b :: t')).head? = x.head?
    cases x with
    | nil => exact absurd rfl hx
    | cons c cs => rfl

/-- Joining after appending one more member. -/
theorem joinL_append_single (sep : List Char) (xs : List (List Char)) (z : List Char)
    (h : xs ≠ []) : joinL sep (xs ++ [z]) = joinL sep xs ++ sep ++ z := by
  induction xs with
  | nil => exact absurd rfl h
  | cons a t ih =>
    cases t with
    | nil => rfl
    | cons b t' =>
      have : (a :: b :: t') ++ [z] = a :: ((b :: t') ++ [z]) := rfl
      rw [this]
      show a ++ sep ++ joinL sep ((b :: t') ++ [z]) = _
      rw [ih (by simp)]
      show a ++ sep ++ (joinL sep (b :: t') ++ sep ++ z) =
        (a ++ sep ++ joinL sep (b :: t')) ++ sep ++ z
      simp [List.append_assoc]

/-- Reversing a join reverses the members and the separator. -/
theorem reverse_joinL (sep : List Char) (xs : List (List Char)) :
    (joinL sep xs).reverse = joinL sep.reverse (xs.reverse.map List.reverse) := by
  induction xs with
  | nil => rfl
  | cons a t ih =>
    cases t with
    | nil => rfl
    | cons b t' =>
      show (a ++ sep ++ joinL sep (b :: t')).reverse = _
      rw [List.reverse_append, List.reverse_append, ih]
      have hne : (b :: t').reverse.map List.reverse ≠ [] := by simp
      rw [show ((a :: b :: t').reverse.map List.reverse) =
          ((b :: t').reverse.map List.reverse) ++ [a.reverse] by simp]
      rw [joinL_append_single _ _ _ hne]
      simp [List.append_assoc]

end Zazzle

namespace Zazzle

/-! ## Truncation lemmas shared by the normalizer claims -/

/-- Length of a truncated-with-ellipsis string. -/
theorem take_ellipsis_length (n : Nat) (d : String) (h : n ≤ d.length) :
    (takeStr n d ++ "...").length = n + 3 := by
  show (takeStr n d ++ "...").data.length = n + 3
  rw [data_append]
  rw [List.length_append]
  show (d.data.take n).length + 3 = n + 3
  rw [List.length_take]
  congr 1
  exact Nat.min_eq_left h

/-- A truncated-with-ellipsis string ends with the ellipsis marker. -/
theorem take_ellipsis_ends (n : Nat) (d : String) :
    strEnds (takeStr n d ++ "...") "..." = true := by
  unfold strEnds
  rw [data_append]
  rw [List.isSuffixOf_iff_suffix]
  exact ⟨(takeStr n d).data, rfl⟩

/-- The retained characters of a truncated-with-ellipsis string are the
original first `n` characters. -/
theorem take_ellipsis_take (n : Nat) (d : String) (h : n ≤ d.length) :
    takeStr n (takeStr n d ++ "...") = takeStr n d := by
  apply String.ext
  show ((takeStr n d ++ "...").data).take n = (takeStr n d).data
  rw [data_append]
  have hlen : n ≤ (takeStr n d).data.length := by
    show n ≤ (d.data.take n).length
    rw [List.length_take]
    exact Nat.le_min.mpr ⟨Nat.le_refl n, h⟩
  rw [List.take_append_of_le_length hlen]
  show (d.data.take n).take n = d.data.take n
  rw [List.take_take, Nat.min_self]

/-! ## C4 -/

/-- C4: for every title strictly longer than the target's maximum (40),
`socialContent.validateContent`'s title rule returns a title of length
exactly 40 ending in `...`, whose first 37 characters are the original
title's first 37 characters. -/
theorem c4_title_truncation (t : String) (h : MAX_TITLE_LENGTH < t.length) :
    (normalizeTitle t).length = MAX_TITLE_LENGTH ∧
    strEnds (normalizeTitle t) "..." = true ∧
    takeStr (MAX_TITLE_LENGTH - 3) (normalizeTitle t) = takeStr (MAX_TITLE_LENGTH - 3) t := by
  have he : normalizeTitle t = takeStr (MAX_TITLE_LENGTH - 3) t ++ "..." := by
    unfold normalizeTitle
    rw [if_pos h]
  have hle : MAX_TITLE_LENGTH - 3 ≤ t.length := by
    have : MAX_TITLE_LENGTH - 3 ≤ MAX_TITLE_LENGTH := Nat.sub_le _ _
    omega
  refine ⟨?_, ?_, ?_⟩
  · rw [he, take_ellipsis_length _ _ hle]
    decide
  · rw [he]
    exact take_ellipsis_ends _ _
  · rw [he, take_ellipsis_take _ _ hle]

/-- C4 witness: a concrete 41-character title is truncated to exactly 40
characters ending in the ellipsis marker. -/
theorem c4_title_truncation_witness :
    MAX_TITLE_LENGTH < ("aaaaaaaaaaaaaaaaaaaaaaaaaaaaaaaaaaaaaaaaa" : String).length ∧
    ((normalizeTitle "aaaaaaaaaaaaaaaaaaaaaaaaaaaaaaaaaaaaaaaaa").length = MAX_TITLE_LENGTH ∧
     strEnds (normalizeTitle "aaaaaaaaaaaaaaaaaaaaaaaaaaaaaaaaaaaaaaaaa") "..." = true ∧
     takeStr (MAX_TITLE_LENGTH - 3) (normalizeTitle "aaaaaaaaaaaaaaaaaaaaaaaaaaaaaaaaaaaaaaaaa") =
       takeStr (MAX_TITLE_LENGTH - 3) "aaaaaaaaaaaaaaaaaaaaaaaaaaaaaaaaaaaaaaaaa") :=
  ⟨by decide, c4_title_truncation "aaaaaaaaaaaaaaaaaaaaaaaaaaaaaaaaaaaaaaaaa" (by decide)⟩

/-! ## C5 -/

/-- C5: `socialContent.validateContent`'s description rule substitutes the
target's whole default description when the input is strictly below the
minimum (100), and truncates to `max - 3` characters plus an ellipsis when
strictly above the maximum (1000). -/
theorem c5_description_normalization (p : Platform) (d : String) :
    (d.length < MIN_DESCRIPTION_LENGTH →
      normalizeDescription p d = (DEFAULT_CONTENT p).description) ∧
    (MAX_DESCRIPTION_LENGTH < d.length →
      normalizeDescription p d = takeStr (MAX_DESCRIPTION_LENGTH - 3) d ++ "..." ∧
      (normalizeDescription p d).length = MAX_DESCRIPTION_LENGTH ∧
      strEnds (normalizeDescription p d) "..." = true) := by
  constructor
  · intro h
    unfold normalizeDescription
    rw [if_pos h]
  · intro h
    have hnot : ¬ d.length < MIN_DESCRIPTION_LENGTH := by
      unfold MIN_DESCRIPTION_LENGTH
      unfold MAX_DESCRIPTION_LENGTH at h
      omega
    have he : normalizeDescription p d = takeStr (MAX_DESCRIPTION_LENGTH - 3) d ++ "..." := by
      unfold normalizeDescription
      rw [if_neg hnot, if_pos h]
    have hle : MAX_DESCRIPTION_LENGTH - 3 ≤ d.length := by
      unfold MAX_DESCRIPTION_LENGTH at h ⊢
      omega
    refine ⟨he, ?_, ?_⟩
    · rw [he, take_ellipsis_length _ _ hle]
      decide
    · rw [he]
      exact take_ellipsis_ends _ _

/-- C5 witness: a 99-character description is replaced wholesale by the
Instagram default, and a 1001-character one is truncated to 1000 characters
ending in the ellipsis. -/
theorem c5_description_normalization_witness :
    (normalizeDescription Platform.Instagram (joinStr "" (List.replicate 99 "b")) =
      (DEFAULT_CONTENT Platform.Instagram).description) ∧
    (normalizeDescription Platform.Facebook (joinStr "" (List.replicate 1001 "b")) =
      takeStr (MAX_DESCRIPTION_LENGTH - 3) (joinStr "" (List.replicate 1001 "b")) ++ "..." ∧
     (normalizeDescription Platform.Facebook (joinStr "" (List.replicate 1001 "b"))).length =
       MAX_DESCRIPTION_LENGTH ∧
     strEnds (normalizeDescription Platform.Facebook (joinStr "" (List.replicate 1001 "b"))) "..." = true) :=
  ⟨(c5_description_normalization Platform.Instagram _).1 (by decide),
   (c5_description_normalization Platform.Facebook _).2 (by decide)⟩

end Zazzle

namespace Zazzle

/-! ## C7 -/

/-- A tag list that is valid under every strict-schema tag rule but contains
the case-insensitive duplicate pair `Gift` / `gift`. -/
def c7raw : String :=
  "mug, handmade, holiday, custom, special, mom, gift idea, maternal, Gift, gift"

/-- C7 counterexample: the strict schema's uniqueness refinement compares
tags as exact strings (`new Set(tags).size === tags.length`), so a tag list
containing `Gift` and `gift` — equal after case-normalization but distinct
as strings — passes every tag rule and yields no violation at all, contrary
to the claim that such lists are rejected with a duplicate-tags violation. -/
theorem c7_case_insensitive_dup_counterexample :
    "Gift" ∈ splitTags c7raw ∧ "gift" ∈ splitTags c7raw ∧
    lowerStr "Gift" = lowerStr "gift" ∧ ("Gift" : String) ≠ "gift" ∧
    tagsIssues2 c7raw = [] := by
  refine ⟨by decide, by decide, by decide, by decide, ?_⟩
  rfl

/-- C7 amended: the uniqueness rule does fire on exact duplicates — any
coerced tag list that is not `Nodup` as exact strings produces the named
`Tags must be unique` violation. -/
theorem c7_exact_dup_violation (raw : String) (h : ¬ (splitTags raw).Nodup) :
    "Tags must be unique" ∈ tagsIssues2 raw := by
  simp [tagsIssues2, List.mem_append, h]

/-- C7 witness: a list with the exact duplicate `mug` is flagged. -/
theorem c7_exact_dup_violation_witness :
    "Tags must be unique" ∈
      tagsIssues2 "mug, mug, holiday, custom, special, mom, gift idea, maternal, cup, tea" :=
  c7_exact_dup_violation _ (by decide)

/-! ## C8 -/

/-- C8 counterexample: for the Pinterest target `formatContent` leaves the
raw comma list untouched — the hashtag form the claim promises for every
social target differs from what Pinterest actually receives. -/
theorem c8_pinterest_counterexample :
    (formatContent Platform.Pinterest (some ⟨"T", "d", "a, b"⟩)).hashtags = "a, b" ∧
    hashtagJoin "a, b" = "#a #b" ∧
    ("a, b" : String) ≠ "#a #b" := by
  refine ⟨rfl, ?_, by decide⟩
  rfl

/-- C8 amended: Instagram and Facebook tags are hash-prefixed and joined
with single spaces; Pinterest keeps the plain comma list; and the Instagram
hashtag validator cuts accepted tag lists to the first
`IG_TAGS_MAX` cleaned tags, dropping only from the tail. -/
theorem c8_hashtag_formatting :
    (∀ (p : Platform) (c : PContent), p ≠ Platform.Pinterest →
      (formatContent p (some c)).hashtags = hashtagJoin c.tags) ∧
    (∀ c : PContent, (formatContent Platform.Pinterest (some c)).hashtags = c.tags) ∧
    (∀ tags : List String, IG_TAGS_MIN ≤ (cleanTags tags).length →
      missingCategories (cleanTags tags) = [] →
      validateHashtags tags = some ((cleanTags tags).take IG_TAGS_MAX)) := by
  refine ⟨?_, ?_, ?_⟩
  · intro p c hp
    unfold formatContent
    simp only [if_neg hp]
  · intro c
    unfold formatContent
    simp
  · intro tags hmin hcat
    unfold validateHashtags
    rw [if_neg (by omega), if_neg (by simp [hcat])]
    by_cases hlen : IG_TAGS_MAX < (cleanTags tags).length
    · rw [if_pos hlen]
    · rw [if_neg hlen, List.take_of_length_le (by omega)]

/-- C8 witness: concrete instantiations — Instagram gets the hash-prefixed
space-joined form, and a 16-tag accepted list is cut to the first 15. -/
theorem c8_hashtag_formatting_witness :
    (formatContent Platform.Instagram (some ⟨"T", "d", "gift, spring"⟩)).hashtags =
      hashtagJoin "gift, spring" ∧
    validateHashtags
        ["gift", "spring", "custom", "handmade", "a1", "a2", "a3", "a4",
         "a5", "a6", "a7", "a8", "a9", "a10", "a11", "a12"] =
      some ((cleanTags
        ["gift", "spring", "custom", "handmade", "a1", "a2", "a3", "a4",
         "a5", "a6", "a7", "a8", "a9", "a10", "a11", "a12"]).take IG_TAGS_MAX) :=
  ⟨c8_hashtag_formatting.1 Platform.Instagram ⟨"T", "d", "gift, spring"⟩ (by decide),
   c8_hashtag_formatting.2.2 _ (by decide) (by decide)⟩

end Zazzle

namespace Zazzle

/-- A successful property lookup implies the JS `in` test succeeds. -/
theorem jHasKey_of_jLookup (f : List (String × Json)) (k : String) (v : Json)
    (h : jLookup f k = some v) : jHasKey f k = true := by
  unfold jLookup at h
  unfold jHasKey
  rcases Option.map_eq_some'.mp h with ⟨p, hfind, _⟩
  have hmem : p ∈ f.reverse := List.mem_of_find?_eq_some hfind
  have hpred := List.find?_some hfind
  rw [List.any_eq_true]
  exact ⟨p, List.mem_reverse.mp hmem, hpred⟩

/-! ## C2 -/

/-- C2 counterexample: the input parses as a JSON object missing the `tags`
key, yet `validateAndTransform` raises `ContentError` with code
`INVALID_JSON` — not `MISSING_INPUT` — and its diagnostic context's
`missingFields` is empty rather than listing the missing key (the names
appear only inside the free-text message). -/
theorem c2_missing_key_counterexample :
    jsonParse (jsTrim "\x7b\"title\":\"t\",\"description\":\"d\"\x7d") =
      some (Json.obj [("title", Json.str "t"), ("description", Json.str "d")]) ∧
    jHasKey [("title", Json.str "t"), ("description", Json.str "d")] "tags" = false ∧
    validateAndTransform "\x7b\"title\":\"t\",\"description\":\"d\"\x7d" =
      Except.error ⟨ECode.INVALID_JSON, jvEnvelope "Missing required fields: tags", []⟩ ∧
    ECode.INVALID_JSON ≠ ECode.MISSING_INPUT ∧
    (⟨ECode.INVALID_JSON, jvEnvelope "Missing required fields: tags", []⟩ : CError).missingFields ≠
      ["tags"] := by
  refine ⟨rfl, by decide, rfl, by decide, by decide⟩

/-- C2 amended: for every input whose trimmed form is brace-delimited and
parses as a JSON object with required keys missing, `validateAndTransform`
fails with `INVALID_JSON` (the structural stage's wrapper), the missing key
names are joined into the error message, and the context's `missingFields`
stays empty. -/
theorem c2_missing_keys_amended (s : String) (f : List (String × Json))
    (h1 : strStarts (jsTrim s) "\x7b" = true) (h2 : strEnds (jsTrim s) "\x7d" = true)
    (hp : jsonParse (jsTrim s) = some (Json.obj f))
    (hm : ["title", "description", "tags"].filter (fun k => !(jHasKey f k)) ≠ []) :
    validateAndTransform s = Except.error
      ⟨ECode.INVALID_JSON,
       jvEnvelope ("Missing required fields: " ++
         joinStr ", " (["title", "description", "tags"].filter (fun k => !(jHasKey f k)))),
       []⟩ := by
  have hjv : validateJSON s = JsonCheck.invalid
      (jvEnvelope ("Missing required fields: " ++
        joinStr ", " (["title", "description", "tags"].filter (fun k => !(jHasKey f k))))) := by
    unfold validateJSON
    simp only [h1, h2, Bool.and_self, Bool.not_true, Bool.false_eq_true, if_false, hp]
    rw [if_neg hm]
  unfold validateAndTransform
  rw [hjv]

/-- C2 amended witness: the concrete object missing only `tags`. -/
theorem c2_missing_keys_amended_witness :
    validateAndTransform "\x7b\"title\":\"t\",\"description\":\"d\"\x7d" = Except.error
      ⟨ECode.INVALID_JSON,
       jvEnvelope ("Missing required fields: " ++
         joinStr ", " (["title", "description", "tags"].filter
           (fun k => !(jHasKey [("title", Json.str "t"), ("description", Json.str "d")] k)))),
       []⟩ :=
  c2_missing_keys_amended "\x7b\"title\":\"t\",\"description\":\"d\"\x7d"
    [("title", Json.str "t"), ("description", Json.str "d")]
    (by decide) (by decide) rfl (by decide)

/-! ## C3 -/

/-- C3: when a structurally valid record violates both the description
minimum-length constraint and the tag minimum-count constraint, the schema
validator collects both violations — both messages appear in the issue list
and in the `VALIDATION_ERROR` message `validateAndTransform` raises, not
just the first one encountered. -/
theorem c3_collects_all_violations (s : String) (f : List (String × Json)) (t d tg : String)
    (h1 : strStarts (jsTrim s) "\x7b" = true) (h2 : strEnds (jsTrim s) "\x7d" = true)
    (hp : jsonParse (jsTrim s) = some (Json.obj f))
    (ht : jLookup f "title" = some (Json.str t))
    (hd : jLookup f "description" = some (Json.str d))
    (htg : jLookup f "tags" = some (Json.str tg))
    (hdlen : d.length < 150)
    (htlen : (splitTags tg).length < 4) :
    "Description must be at least 150 characters" ∈ schemaIssues (Json.obj f) ∧
    "Must have between 4 and 12 tags" ∈ schemaIssues (Json.obj f) ∧
    ∃ msg : String,
      validateAndTransform s = Except.error ⟨ECode.VALIDATION_ERROR, msg, []⟩ ∧
      includes msg "Description must be at least 150 characters" = true ∧
      includes msg "Must have between 4 and 12 tags" = true := by
  have hd_mem : "Description must be at least 150 characters" ∈ schemaIssues (Json.obj f) := by
    show _ ∈ fieldIssues titleIssues (jLookup f "title") ++
      fieldIssues descriptionIssues (jLookup f "description") ++ tagsFieldIssues (jLookup f "tags")
    rw [ht, hd, htg]
    apply List.mem_append_left
    apply List.mem_append_right
    show _ ∈ descriptionIssues d
    unfold descriptionIssues
    apply List.mem_append_left
    apply List.mem_append_left
    rw [if_pos hdlen]
    exact List.mem_singleton.mpr rfl
  have hg_mem : "Must have between 4 and 12 tags" ∈ schemaIssues (Json.obj f) := by
    show _ ∈ fieldIssues titleIssues (jLookup f "title") ++
      fieldIssues descriptionIssues (jLookup f "description") ++ tagsFieldIssues (jLookup f "tags")
    rw [ht, hd, htg]
    apply List.mem_append_right
    show _ ∈ tagListIssues (splitTags tg)
    unfold tagListIssues
    apply List.mem_append_left
    rw [if_neg (by omega)]
    exact List.mem_singleton.mpr rfl
  have hkeys : ["title", "description", "tags"].filter (fun k => !(jHasKey f k)) = [] := by
    have k1 := jHasKey_of_jLookup f "title" _ ht
    have k2 := jHasKey_of_jLookup f "description" _ hd
    have k3 := jHasKey_of_jLookup f "tags" _ htg
    simp [k1, k2, k3]
  have hjv : validateJSON s = JsonCheck.valid (Json.obj f) := by
    unfold validateJSON
    simp only [h1, h2, Bool.and_self, Bool.not_true, Bool.false_eq_true, if_false, hp, hkeys]
    rw [if_pos trivial]
  have hne : ¬ schemaIssues (Json.obj f) = [] := List.ne_nil_of_mem hd_mem
  refine ⟨hd_mem, hg_mem,
    "Content validation failed: " ++ joinStr ", " (schemaIssues (Json.obj f)), ?_, ?_, ?_⟩
  · unfold validateAndTransform
    rw [hjv]
    simp only [hne, if_false]
  · exact includes_append_left _ _ _ (includes_joinStr_of_mem _ _ _ hd_mem)
  · exact includes_append_left _ _ _ (includes_joinStr_of_mem _ _ _ hg_mem)

/-- C3 witness: the spec's concrete scenario input, whose description is too
short and whose tag count is too low at the same time. -/
theorem c3_collects_all_violations_witness :
    "Description must be at least 150 characters" ∈
      schemaIssues (Json.obj [("title", Json.str "x"), ("description", Json.str "short"),
        ("tags", Json.str "a,b")]) ∧
    "Must have between 4 and 12 tags" ∈
      schemaIssues (Json.obj [("title", Json.str "x"), ("description", Json.str "short"),
        ("tags", Json.str "a,b")]) ∧
    ∃ msg : String,
      validateAndTransform "\x7b\"title\":\"x\",\"description\":\"short\",\"tags\":\"a,b\"\x7d" =
        Except.error ⟨ECode.VALIDATION_ERROR, msg, []⟩ ∧
      includes msg "Description must be at least 150 characters" = true ∧
      includes msg "Must have between 4 and 12 tags" = true :=
  c3_collects_all_violations "\x7b\"title\":\"x\",\"description\":\"short\",\"tags\":\"a,b\"\x7d"
    [("title", Json.str "x"), ("description", Json.str "short"), ("tags", Json.str "a,b")]
    "x" "short" "a,b"
    (by decide) (by decide) rfl rfl rfl rfl (by decide) (by decide)

end Zazzle

namespace Zazzle

/-- `String(v)` of a string value is the string itself. -/
theorem jsToString_str (s : String) : jsToString (Json.str s) = s := by
  unfold jsToString
  rfl

/-! ## C9 -/

/-- C9: at the social-content validation entry point, a missing or blank
`title` or `description` rejects the record (`null`, routed by
`formatContent` to the platform default record), while missing or empty
`tags` never fail — the platform's hardcoded default tag string is
substituted and validation succeeds. -/
theorem c9_blank_fields_vs_tags (p : Platform) (f : List (String × Json)) (t d : String) :
    (jLookup f "title" = none → svalidateData p (Json.obj f) = none) ∧
    (jLookup f "title" = some (Json.str t) → jsTrim t = "" →
      svalidateData p (Json.obj f) = none) ∧
    (jLookup f "description" = none → svalidateData p (Json.obj f) = none) ∧
    (jLookup f "description" = some (Json.str d) → jsTrim d = "" →
      svalidateData p (Json.obj f) = none) ∧
    (formatContent p none = ⟨(DEFAULT_CONTENT p).description, (DEFAULT_CONTENT p).tags⟩) ∧
    (jLookup f "title" = some (Json.str t) → jsTrim t ≠ "" →
     jLookup f "description" = some (Json.str d) → jsTrim d ≠ "" →
     (jLookup f "tags" = none ∨ jLookup f "tags" = some (Json.str "")) →
     ∃ c : PContent, svalidateData p (Json.obj f) = some c ∧
       c.tags = (DEFAULT_CONTENT p).tags) := by
  have hnt : ∀ q : Platform, normalizeTags q "" = (DEFAULT_CONTENT q).tags := by
    intro q
    cases q <;> rfl
  refine ⟨?_, ?_, ?_, ?_, rfl, ?_⟩
  · intro h
    cases hdl : jLookup f "description" with
    | none => simp [svalidateData, h, hdl]
    | some v => cases v <;> simp [svalidateData, h, hdl]
  · intro h hblank
    cases hdl : jLookup f "description" with
    | none => simp [svalidateData, h, hdl]
    | some v => cases v <;> simp [svalidateData, h, hdl, hblank]
  · intro h
    cases htl : jLookup f "title" with
    | none => simp [svalidateData, h, htl]
    | some v => cases v <;> simp [svalidateData, h, htl]
  · intro h hblank
    cases htl : jLookup f "title" with
    | none => simp [svalidateData, h, htl]
    | some v => cases v <;> simp [svalidateData, h, htl, hblank]
  · intro ht1 htne hd1 hdne htags
    have hcond : ¬ (jsTrim t = "" ∨ jsTrim d = "") := by
      rintro (h | h)
      · exact htne h
      · exact hdne h
    rcases htags with h | h
    · have heq : svalidateData p (Json.obj f) =
          some ⟨normalizeTitle (jsTrim t), normalizeDescription p (jsTrim d),
            normalizeTags p (jsTrim (jsToString (Json.str "")))⟩ := by
        simp [svalidateData, ht1, hd1, h, hcond]
      refine ⟨_, heq, ?_⟩
      show normalizeTags p (jsTrim (jsToString (Json.str ""))) = _
      rw [jsToString_str]
      exact hnt p
    · have heq : svalidateData p (Json.obj f) =
          some ⟨normalizeTitle (jsTrim t), normalizeDescription p (jsTrim d),
            normalizeTags p (jsTrim (jsToString (Json.str "")))⟩ := by
        simp [svalidateData, ht1, hd1, h, hcond, jsTruthy]
      refine ⟨_, heq, ?_⟩
      show normalizeTags p (jsTrim (jsToString (Json.str ""))) = _
      rw [jsToString_str]
      exact hnt p

/-- C9 witness: a concrete record with good title and description and an
empty tags string is accepted with the Facebook default tags, and one with a
blank title is rejected. -/
theorem c9_blank_fields_vs_tags_witness :
    (∃ c : PContent,
      svalidateData Platform.Facebook
        (Json.obj [("title", Json.str "T"), ("description", Json.str "D"),
          ("tags", Json.str "")]) = some c ∧
      c.tags = (DEFAULT_CONTENT Platform.Facebook).tags) ∧
    svalidateData Platform.Facebook
      (Json.obj [("title", Json.str "  "), ("description", Json.str "D")]) = none :=
  ⟨(c9_blank_fields_vs_tags Platform.Facebook
      [("title", Json.str "T"), ("description", Json.str "D"), ("tags", Json.str "")]
      "T" "D").2.2.2.2.2 rfl (by decide) rfl (by decide) (Or.inr rfl),
   (c9_blank_fields_vs_tags Platform.Facebook
      [("title", Json.str "  "), ("description", Json.str "D")]
      "  " "D").2.1 rfl (by decide)⟩

/-! ## C10 -/

/-- Keyword hits survive prepending text. -/
theorem hasAny_append_left (a b : String) (ws : List String) (h : hasAny b ws = true) :
    hasAny (a ++ b) ws = true := by
  unfold hasAny at h ⊢
  rw [List.any_eq_true] at h ⊢
  rcases h with ⟨w, hw, hincl⟩
  refine ⟨w, hw, ?_⟩
  rw [lowerStr_append]
  exact includes_append_left _ _ _ hincl

/-- Keyword hits survive appending text. -/
theorem hasAny_append_right (a b : String) (ws : List String) (h : hasAny a ws = true) :
    hasAny (a ++ b) ws = true := by
  unfold hasAny at h ⊢
  rw [List.any_eq_true] at h ⊢
  rcases h with ⟨w, hw, hincl⟩
  refine ⟨w, hw, ?_⟩
  rw [lowerStr_append]
  exact includes_append_right _ _ _ hincl

/-- The repair pass always leaves a call-to-action phrase in the text:
either the input already had one (checks run before any suffix is added) or
the canned `Order now!` suffix is appended. -/
theorem igRepair_hasCta (v : String) : hasAny (igRepair v) igCta = true := by
  unfold igRepair
  by_cases hc : hasAny v igCta = true
  · simp only [hc, Bool.not_true, Bool.false_eq_true, if_false]
    by_cases ce : (!(hasAny v igEmotional) || !(hasAny v igPersonalization)) = true
    · rw [if_pos ce]
      by_cases cb : (!(hasAny v igBenefits)) = true
      · rw [if_pos cb]
        exact hasAny_append_right _ _ _ (hasAny_append_right _ _ _ hc)
      · rw [if_neg cb]
        exact hasAny_append_right _ _ _ hc
    · rw [if_neg ce]
      by_cases cb : (!(hasAny v igBenefits)) = true
      · rw [if_pos cb]
        exact hasAny_append_right _ _ _ hc
      · rw [if_neg cb]
        exact hc
  · have hc2 : hasAny v igCta = false := Bool.not_eq_true _ |>.mp hc
    simp only [hc2, Bool.not_false, if_true]
    exact hasAny_append_left _ _ _ (by decide)

end Zazzle


namespace Zazzle

/-- The emoji pass preserves call-to-action phrases. -/
theorem igEmojiWrap_keeps (v : String) (h : hasAny v igCta = true) :
    hasAny (igEmojiWrap v) igCta = true := by
  unfold igEmojiWrap
  by_cases hcond : (!(includes v "✨") && !(includes v "🌟")) = true
  · rw [if_pos hcond]
    exact hasAny_append_left _ _ _ h
  · rw [if_neg hcond]
    exact h

/-- A 160-character description with no required elements. -/
def c10input : String := "xxxxxxxxxxxxxxxxxxxxxxxxxxxxxxxxxxxxxxxxxxxxxxxxxxxxxxxxxxxxxxxxxxxxxxxxxxxxxxxxxxxxxxxxxxxxxxxxxxxxxxxxxxxxxxxxxxxxxxxxxxxxxxxxxxxxxxxxxxxxxxxxxxxxxxxxxxxxxxxx"

/-- C10: the Instagram description repair suffixes are appended after the
length truncation, so an over-long element-free input comes back strictly
longer than the 150-character maximum, while every non-empty input comes
back containing a call-to-action phrase. -/
theorem c10_append_after_truncation :
    (∀ d : String, d ≠ "" →
      ∃ r, validateDescription d = some r ∧ hasAny r igCta = true) ∧
    (c10input ≠ "" ∧ IG_DESC_MAX < c10input.length ∧
     hasAny c10input igEmotional = false ∧ hasAny c10input igPersonalization = false ∧
     hasAny c10input igBenefits = false ∧ hasAny c10input igCta = false ∧
     (validateDescription c10input).isSome = true ∧
     IG_DESC_MAX < ((validateDescription c10input).getD "").length) := by
  constructor
  · intro d hd
    refine ⟨igEmojiWrap (igRepair (igTruncate (jsTrim d))), ?_, ?_⟩
    · unfold validateDescription
      rw [if_neg hd]
    · exact igEmojiWrap_keeps _ (igRepair_hasCta _)
  · refine ⟨by decide, by decide, by decide, by decide, by decide, by decide, ?_, ?_⟩
    · rfl
    · decide

/-- C10 witness: the universal call-to-action clause applied to a concrete
non-empty description. -/
theorem c10_append_after_truncation_witness :
    ∃ r, validateDescription "hello" = some r ∧ hasAny r igCta = true :=
  c10_append_after_truncation.1 "hello" (by decide)

end Zazzle

namespace Zazzle

/-! ## C1 -/

/-- The regex capture isolates a brace-delimited span exactly when the
leading prose contains no opening brace and the trailing prose no closing
brace. -/
theorem braceSpanL_extract (pre mid post : List Char)
    (hpre : '{' ∉ pre) (hpost : '}' ∉ post) :
    braceSpanL (pre ++ ('{' :: mid ++ ['}']) ++ post) = '{' :: mid ++ ['}'] := by
  have hpre' : ∀ a ∈ pre, (fun c => decide (c ≠ '{')) a = true :=
    fun a ha => decide_eq_true (fun he => hpre (he ▸ ha))
  have hpost' : ∀ a ∈ post.reverse, (fun c => decide (c ≠ '}')) a = true :=
    fun a ha => decide_eq_true (fun he => hpost (he ▸ List.mem_reverse.mp ha))
  have h1 : (pre ++ ('{' :: mid ++ ['}']) ++ post).dropWhile (fun c => decide (c ≠ '{')) =
      '{' :: (mid ++ ['}'] ++ post) := by
    rw [List.append_assoc, dropWhile_append_all _ pre _ hpre']
    simp [List.dropWhile_cons]
  have hmem : ('}' ∈ mid ++ ['}'] ++ post) :=
    List.mem_append_left _ (List.mem_append_right _ (List.mem_singleton.mpr rfl))
  have h2 : (('{' :: (mid ++ ['}'] ++ post)).reverse).dropWhile (fun c => decide (c ≠ '}')) =
      '}' :: (mid.reverse ++ ['{']) := by
    rw [show ('{' :: (mid ++ ['}'] ++ post)).reverse =
      post.reverse ++ ('}' :: (mid.reverse ++ ['{'])) from by simp]
    rw [dropWhile_append_all _ _ _ hpost']
    simp [List.dropWhile_cons]
  simp only [braceSpanL]
  rw [h1]
  show (if (mid ++ ['}'] ++ post).contains '}' = true then
      (('{' :: (mid ++ ['}'] ++ post)).reverse.dropWhile (fun c => decide (c ≠ '}'))).reverse
    else pre ++ ('{' :: mid ++ ['}']) ++ post) = '{' :: mid ++ ['}']
  rw [if_pos (List.elem_eq_true_of_mem hmem)]
  rw [h2]
  simp

/-- `socialContent`'s cleanup step recovers exactly the JSON span from
prose-wrapped input whose prose is brace-free. -/
theorem cleanContent_extract (pre mid post : List Char)
    (hpre : '{' ∉ pre) (hpost : '}' ∉ post) :
    cleanContent ⟨pre ++ ('{' :: mid ++ ['}']) ++ post⟩ = ⟨'{' :: mid ++ ['}']⟩ := by
  unfold cleanContent
  rw [show (⟨pre ++ ('{' :: mid ++ ['}']) ++ post⟩ : String).data =
    pre ++ ('{' :: mid ++ ['}']) ++ post from rfl]
  rw [braceSpanL_extract _ _ _ hpre hpost]
  unfold jsTrim
  apply congrArg
  apply trimL_eq_self
  · intro c hc
    have hc' : some '{' = some c := hc
    injection hc' with h
    subst h
    decide
  · intro c hc
    rw [show ('{' :: mid ++ ['}']) = ('{' :: mid) ++ ['}'] from by simp] at hc
    rw [List.getLast?_concat] at hc
    injection hc with h
    subst h
    decide

/-- The concrete prose-wrapped model reply used against C1. -/
def c1bad : String := "Sure! \x7b\"title\":\"t\",\"description\":\"d\",\"tags\":\"a\"\x7d"

/-- C1 counterexample: `c1bad` is a valid JSON object with the three
required keys wrapped in leading prose, and the social-content cleanup does
isolate it — yet the Structural Validator (`Validator.validateJSON`), which
the claim describes, performs no prose-stripping at all and rejects the
input as invalid instead of returning `Valid` with the parsed object. -/
theorem c1_prose_counterexample :
    cleanContent c1bad = "\x7b\"title\":\"t\",\"description\":\"d\",\"tags\":\"a\"\x7d" ∧
    jsonParse "\x7b\"title\":\"t\",\"description\":\"d\",\"tags\":\"a\"\x7d" =
      some (Json.obj [("title", Json.str "t"), ("description", Json.str "d"),
        ("tags", Json.str "a")]) ∧
    strStarts c1bad "\x7b" = false ∧
    validateJSON c1bad = JsonCheck.invalid (jvEnvelope "Input must be a JSON object") := by
  refine ⟨rfl, rfl, by decide, rfl⟩

/-- C1 amended: the main structural validator strips nothing — any input
whose trimmed form is not brace-delimited is rejected outright — while the
social-content validator does extract the span from the first `\x7b` to the
last `\x7d`, so prose-wrapped JSON succeeds there whenever the prose
contains no braces and the parsed object carries non-blank title and
description. -/
theorem c1_prose_stripping_amended :
    (∀ s : String, (strStarts (jsTrim s) "\x7b" && strEnds (jsTrim s) "\x7d") = false →
      validateJSON s = JsonCheck.invalid (jvEnvelope "Input must be a JSON object")) ∧
    (∀ (pre mid post : List Char) (p : Platform) (f : List (String × Json)) (t d : String),
      '{' ∉ pre → '}' ∉ post →
      jsonParse ⟨'{' :: mid ++ ['}']⟩ = some (Json.obj f) →
      jLookup f "title" = some (Json.str t) → jsTrim t ≠ "" →
      jLookup f "description" = some (Json.str d) → jsTrim d ≠ "" →
      ∃ c : PContent, svalidateContent p ⟨pre ++ ('{' :: mid ++ ['}']) ++ post⟩ = some c) := by
  constructor
  · intro s h
    unfold validateJSON
    simp only [h, Bool.not_false, if_true]
  · intro pre mid post p f t d hpre hpost hparse ht htne hd hdne
    unfold svalidateContent
    rw [cleanContent_extract pre mid post hpre hpost]
    have hst : strStarts ⟨'{' :: mid ++ ['}']⟩ "\x7b" = true := by
      unfold strStarts
      rw [show ("\x7b" : String).data = ['{'] from by decide]
      exact List.isPrefixOf_iff_prefix.mpr ⟨mid ++ ['}'], rfl⟩
    have hen : strEnds ⟨'{' :: mid ++ ['}']⟩ "\x7d" = true := by
      unfold strEnds
      rw [show ("\x7d" : String).data = ['}'] from by decide]
      rw [List.isSuffixOf_iff_suffix]
      exact ⟨'{' :: mid, by simp⟩
    rw [hst, hen]
    simp only [Bool.and_self, Bool.not_true, Bool.false_eq_true, if_false]
    rw [hparse]
    show ∃ c, svalidateData p (Json.obj f) = some c
    have hcond : ¬ (jsTrim t = "" ∨ jsTrim d = "") := by
      rintro (h | h)
      · exact htne h
      · exact hdne h
    cases hg : jLookup f "tags" with
    | none =>
      refine ⟨⟨normalizeTitle (jsTrim t), normalizeDescription p (jsTrim d),
        normalizeTags p (jsTrim (jsToString (Json.str "")))⟩, ?_⟩
      simp [svalidateData, ht, hd, hg, hcond]
    | some v =>
      refine ⟨⟨normalizeTitle (jsTrim t), normalizeDescription p (jsTrim d),
        normalizeTags p (jsTrim (jsToString (if jsTruthy v then v else Json.str "")))⟩, ?_⟩
      simp [svalidateData, ht, hd, hg, hcond]

/-- C1 amended witness: the concrete prose-wrapped reply is accepted by the
social-content validator. -/
theorem c1_prose_stripping_amended_witness :
    ∃ c : PContent,
      svalidateContent Platform.Instagram
        ⟨("Sure! " : String).data ++
          ('{' :: ("\"title\":\"t\",\"description\":\"d\",\"tags\":\"a\"" : String).data ++ ['}']) ++
          (" ok" : String).data⟩ = some c :=
  c1_prose_stripping_amended.2 ("Sure! " : String).data
    ("\"title\":\"t\",\"description\":\"d\",\"tags\":\"a\"" : String).data
    (" ok" : String).data Platform.Instagram
    [("title", Json.str "t"), ("description", Json.str "d"), ("tags", Json.str "a")]
    "t" "d" (by decide) (by decide) rfl rfl (by decide) rfl (by decide)

end Zazzle

namespace Zazzle

/-! ## C6 -/

/-- The head of an append with non-empty left part. -/
theorem head?_append_left (a b : List Char) (ha : a ≠ []) : (a ++ b).head? = a.head? := by
  cases a with
  | nil => exact absurd rfl ha
  | cons c cs => rfl

/-- The last element of an append with non-empty right part. -/
theorem getLast?_append_right (a b : List Char) (hb : b ≠ []) :
    (a ++ b).getLast? = b.getLast? := by
  rw [← List.head?_reverse, ← List.head?_reverse, List.reverse_append]
  exact head?_append_left _ _ (by simp [hb])

/-- A join over non-empty members ends like one of its members. -/
theorem getLast?_joinL (sep : List Char) (xs : List (List Char))
    (hne : xs ≠ []) (hx : ∀ x ∈ xs, x ≠ []) :
    ∃ x ∈ xs, (joinL sep xs).getLast? = x.getLast? := by
  induction xs with
  | nil => exact absurd rfl hne
  | cons a t ih =>
    cases t with
    | nil => exact ⟨a, List.mem_singleton.mpr rfl, rfl⟩
    | cons b t' =>
      have hJ : joinL sep (b :: t') ≠ [] := by
        intro he
        have hh : (joinL sep (b :: t')).head? = (b : List Char).head? :=
          head?_joinL sep b t' (hx b (by simp))
        rw [he] at hh
        cases hb : (b : List Char) with
        | nil => exact hx b (by simp) hb
        | cons z zs => rw [hb] at hh; cases hh
      rcases ih (by simp) (fun x hxm => hx x (List.mem_cons_of_mem _ hxm)) with ⟨x, hxm, hxl⟩
      refine ⟨x, List.mem_cons_of_mem _ hxm, ?_⟩
      show ((a ++ sep) ++ joinL sep (b :: t')).getLast? = x.getLast?
      rw [getLast?_append_right _ _ hJ]
      exact hxl

/-- Characters of a trimmed list come from the original list. -/
theorem mem_trimL (l : List Char) (c : Char) (h : c ∈ trimL l) : c ∈ l := by
  unfold trimL at h
  rw [List.mem_reverse] at h
  have h1 := (List.dropWhile_sublist _).subset h
  rw [List.mem_reverse] at h1
  exact (List.dropWhile_sublist _).subset h1

/-- No piece produced by splitting contains the separator. -/
theorem splitL_no_sep (sep : Char) (s : List Char) :
    ∀ l ∈ splitL sep s, sep ∉ l := by
  induction s with
  | nil =>
    intro l hl
    rw [show splitL sep [] = [[]] from rfl, List.mem_singleton] at hl
    subst hl
    exact List.not_mem_nil sep
  | cons c cs ih =>
    intro l hl
    unfold splitL at hl
    by_cases hc : c = sep
    · rw [if_pos hc] at hl
      rcases List.mem_cons.mp hl with h | h
      · subst h; exact List.not_mem_nil sep
      · exact ih l h
    · rw [if_neg hc] at hl
      cases hr : splitL sep cs with
      | nil =>
        rw [hr] at hl
        rcases List.mem_singleton.mp hl with h
        subst h
        intro hm
        exact hc (List.mem_singleton.mp hm).symm
      | cons hh tt =>
        rw [hr] at hl
        rcases List.mem_cons.mp hl with h | h
        · subst h
          intro hm
          rcases List.mem_cons.mp hm with h2 | h2
          · exact hc h2.symm
          · exact ih hh (hr ▸ List.mem_cons_self _ _) h2
        · exact ih l (hr ▸ List.mem_cons_of_mem _ h)

/-- Every formatted hashtag token is non-empty, starts with `#`, contains no
comma, and ends in a non-whitespace character. -/
theorem hashtagTok_props (s : String) (w : String)
    (hw : w ∈ (((jsSplit ',' s).map jsTrim).filter (fun t => t ≠ "")).map
      (fun t => if strStarts t "#" then t else "#" ++ t)) :
    w.data ≠ [] ∧ w.data.head? = some '#' ∧ ',' ∉ w.data ∧
      (∀ c, w.data.getLast? = some c → isWs c = false) := by
  rcases List.mem_map.mp hw with ⟨u, hu, hwu⟩
  rcases List.mem_filter.mp hu with ⟨hu1, hu2⟩
  have hune : u ≠ "" := of_decide_eq_true hu2
  rcases List.mem_map.mp hu1 with ⟨piece, hpiece, hup⟩
  rcases List.mem_map.mp hpiece with ⟨l, hl, hpl⟩
  have hudata : u.data = trimL l := by
    rw [← hup, ← hpl]
    rfl
  have hlne : u.data ≠ [] := by
    intro he
    apply hune
    rw [← strEta u, he]
  have hnc : ',' ∉ u.data := by
    rw [hudata]
    intro hm
    exact splitL_no_sep ',' s.data l hl (mem_trimL _ _ hm)
  have hlast : ∀ c, u.data.getLast? = some c → isWs c = false := by
    intro c hc
    rw [hudata] at hc
    exact trimL_getLast_not_ws l c hc
  subst hwu
  by_cases hs : strStarts u "#" = true
  · rw [if_pos hs]
    refine ⟨hlne, ?_, hnc, hlast⟩
    unfold strStarts at hs
    rw [show ("#" : String).data = ['#'] from by decide] at hs
    rcases List.isPrefixOf_iff_prefix.mp hs with ⟨tl, htl⟩
    rw [← htl]
    rfl
  · rw [if_neg hs]
    have hdd : ("#" ++ u).data = '#' :: u.data := by
      rw [data_append, show ("#" : String).data = ['#'] from by decide]
      rfl
    refine ⟨?_, ?_, ?_, ?_⟩
    · rw [hdd]; simp
    · rw [hdd]; rfl
    · rw [hdd]
      intro hm
      rcases List.mem_cons.mp hm with h2 | h2
      · cases h2
      · exact hnc h2
    · intro c hc
      rw [hdd] at hc
      cases hud : u.data with
      | nil => exact absurd hud hlne
      | cons z zs =>
        rw [hud] at hc
        rw [show ('#' :: z :: zs) = ['#'] ++ (z :: zs) from rfl,
          getLast?_append_right _ _ (by simp)] at hc
        apply hlast
        rw [hud]
        exact hc

/-- A string that is non-empty, comma-free, `#`-initial and whitespace-free
at both ends is a fixed point of the hashtag formatter. -/
theorem hashtagJoin_fixed (r : String)
    (h0 : r.data ≠ [])
    (h1 : r.data.head? = some '#')
    (h2 : ',' ∉ r.data)
    (h3 : ∀ c, r.data.getLast? = some c → isWs c = false) :
    hashtagJoin r = r := by
  have htrim : jsTrim r = r := by
    have hh : ∀ c, r.data.head? = some c → isWs c = false := by
      intro c hc
      rw [h1] at hc
      injection hc with hh2
      subst hh2
      decide
    unfold jsTrim
    rw [trimL_eq_self r.data hh h3]
  have hsplit : jsSplit ',' r = [r] := by
    unfold jsSplit
    rw [splitL_eq_single ',' r.data h2]
    show [(⟨r.data⟩ : String)] = [r]
    rw [strEta]
  have hne : r ≠ "" := by
    intro he
    apply h0
    rw [he]
  have hstart : strStarts r "#" = true := by
    unfold strStarts
    rw [show ("#" : String).data = ['#'] from by decide]
    cases hd : r.data with
    | nil => exact absurd hd h0
    | cons c cs =>
      rw [hd] at h1
      have h1' : some c = some '#' := h1
      injection h1' with hh
      subst hh
      exact List.isPrefixOf_iff_prefix.mpr ⟨cs, rfl⟩
  unfold hashtagJoin
  rw [hsplit]
  rw [show ([r].map jsTrim) = [jsTrim r] from rfl, htrim]
  rw [show List.filter (fun t => t ≠ "") [r] = [r] from by simp [hne]]
  rw [show ([r].map (fun t => if strStarts t "#" then t else "#" ++ t)) =
    [if strStarts r "#" then r else "#" ++ r] from rfl]
  rw [if_pos hstart]
  show (⟨joinL (" " : String).data [r.data]⟩ : String) = r
  rw [show joinL (" " : String).data [r.data] = r.data from rfl]

/-- The hashtag formatter is idempotent. -/
theorem hashtagJoin_idem (s : String) : hashtagJoin (hashtagJoin s) = hashtagJoin s := by
  cases hco : (((jsSplit ',' s).map jsTrim).filter (fun t => t ≠ "")).map
      (fun t => if strStarts t "#" then t else "#" ++ t) with
  | nil =>
    have hz : hashtagJoin s = "" := by
      unfold hashtagJoin
      rw [hco]
      rfl
    rw [hz]
    rfl
  | cons w rest =>
    have hprops : ∀ w' ∈ (((jsSplit ',' s).map jsTrim).filter (fun t => t ≠ "")).map
        (fun t => if strStarts t "#" then t else "#" ++ t),
        w'.data ≠ [] ∧ w'.data.head? = some '#' ∧ ',' ∉ w'.data ∧
          (∀ c, w'.data.getLast? = some c → isWs c = false) :=
      fun w' hw' => hashtagTok_props s w' hw'
    have hwprop := hprops w (hco ▸ List.mem_cons_self _ _)
    have hrdata : (hashtagJoin s).data = joinL (" " : String).data (w.data :: rest.map String.data) := by
      unfold hashtagJoin
      rw [hco]
      rfl
    have hhead : (hashtagJoin s).data.head? = some '#' := by
      rw [hrdata, head?_joinL _ _ _ hwprop.1]
      exact hwprop.2.1
    have h0 : (hashtagJoin s).data ≠ [] := by
      intro he
      rw [he] at hhead
      cases hhead
    have h2 : ',' ∉ (hashtagJoin s).data := by
      rw [hrdata]
      intro hm
      rcases mem_joinL _ _ _ hm with hsep | ⟨x, hx, hcx⟩
      · rw [show (" " : String).data = [' '] from by decide] at hsep
        rcases List.mem_singleton.mp hsep with h
        cases h
      · have hx' : x ∈ (w :: rest).map String.data := hx
        rcases List.mem_map.mp hx' with ⟨w', hw', hxd⟩
        have := (hprops w' (hco ▸ hw')).2.2.1
        rw [hxd] at this
        exact this hcx
    have h3 : ∀ c, (hashtagJoin s).data.getLast? = some c → isWs c = false := by
      intro c hc
      rw [hrdata] at hc
      have hxne : ∀ x ∈ w.data :: rest.map String.data, x ≠ [] := by
        intro x hx
        rcases List.mem_cons.mp hx with h | h
        · subst h
          exact hwprop.1
        · rcases List.mem_map.mp h with ⟨w', hw', hxd⟩
          have := (hprops w' (hco ▸ List.mem_cons_of_mem _ hw')).1
          rw [hxd] at this
          exact this
      rcases getLast?_joinL _ _ (by simp) hxne with ⟨x, hx, hxl⟩
      rw [hxl] at hc
      rcases List.mem_cons.mp hx with h | h
      · subst h
        exact hwprop.2.2.2 c hc
      · rcases List.mem_map.mp h with ⟨w', hw', hxd⟩
        apply (hprops w' (hco ▸ List.mem_cons_of_mem _ hw')).2.2.2 c
        rw [hxd]
        exact hc
    exact hashtagJoin_fixed _ h0 hhead h2 h3

/-- C6: normalizing an already-normalized record (its description carries an
emoji marker, so all stylistic elements are present) is idempotent — feeding
`formatContent`'s own output back through it reproduces the same record,
for every platform and every tag string. -/
theorem c6_normalize_idempotent (p : Platform) (c : PContent) (t2 : String)
    (h : (includes c.description MARKER1 || includes c.description MARKER2) = true) :
    formatContent p (some ⟨t2, (formatContent p (some c)).description,
      (formatContent p (some c)).hashtags⟩) = formatContent p (some c) := by
  have hcond : (!(includes c.description MARKER1) && !(includes c.description MARKER2)) = false := by
    rw [Bool.or_eq_true] at h
    rcases h with h1 | h1 <;> simp [h1]
  by_cases hp : p = Platform.Pinterest
  · subst hp
    simp [formatContent, hcond]
  · simp [formatContent, hcond, hp, hashtagJoin_idem]

/-- C6 witness: a concrete marker-carrying Facebook record is a fixed point
of a second normalization pass. -/
theorem c6_normalize_idempotent_witness :
    formatContent Platform.Facebook
      (some ⟨"T2",
        (formatContent Platform.Facebook (some ⟨"T", "Great ‚ú® mug", "a, b"⟩)).description,
        (formatContent Platform.Facebook (some ⟨"T", "Great ‚ú® mug", "a, b"⟩)).hashtags⟩) =
      formatContent Platform.Facebook (some ⟨"T", "Great ‚ú® mug", "a, b"⟩) :=
  c6_normalize_idempotent Platform.Facebook ⟨"T", "Great ‚ú® mug", "a, b"⟩ "T2" (by decide)

end Zazzle
